import Mathlib

/-!
Verification of the TCE (trivial compiler equivalence) mutant classifier.

The development shallowly embeds the two algorithmic scripts of the
repository:

* `tce.py` — the fingerprint indexer and equivalence classifier
  (`run_tce`, `read_name_tuple_from_root`): walking each mutant's
  compiled-artifact tree, grouping mutant ids by (sorted artifact-name
  tuple, artifact-content tuple) in a two-level hash index, folding in
  the baseline program under the reserved id "0", and splitting the
  non-singleton classes into equivalent and redundant collections with
  summary counts.

* `compare_equiv_files.py` — the equivalence-set comparator (`main`):
  parsing two line-oriented classification files into per-id maps and
  reporting, for each file treated as primary, classes that do not
  correspond to exactly one class of the other file, or that fail the
  subset check against it.

Modelling conventions:

* File paths produced by `os.walk`/`os.path.join` are modelled as pairs
  `(dirpath relative to the walk root, filename)`; since `os.walk`
  filenames contain no path separator, joining is injective and lookup
  by joined path coincides with lookup by pair.
* A directory tree rooted at some directory is modelled as an
  association list from such path pairs to file contents (byte lists);
  a missing file makes the read fail, modelled with `Option` — in the
  script an uncaught `IOError` aborts the whole run, which corresponds
  to the whole modelled run evaluating to `none`.
* Python dicts are modelled as insertion-ordered association lists:
  lookup takes the first matching key, value updates rewrite the first
  matching entry in place, and fresh keys are appended at the end —
  exactly the observable key order and update semantics of dicts.
* Python sets of mutant ids are modelled as duplicate-free lists in
  insertion order; only membership and size are observed by the
  program logic.
* Python integers are modelled as `Int` where subtraction occurs.
* The `progress` helper divides by its `total` argument unless the
  `done % increment` early return fires; the division by zero that a
  zero `total` provokes is modelled as `none`.
-/

/-! ## Data model shared by both scripts -/

abbrev Bytes := List Nat

abbrev PathName := String × String

abbrev NameTuple := List PathName

abbrev ContentsTuple := List Bytes

abbrev FileMap := List (PathName × Bytes)

/-- Look up the contents of a file under a root directory. -/
def fsLookup : FileMap → PathName → Option Bytes
  | [], _ => none
  | (p, b) :: rest, q => if q = p then some b else fsLookup rest q

/-- `read_name_tuple_from_root` of `tce.py`: read each named artifact's
raw bytes under `root`, in name-tuple order; a missing file aborts. -/
def read_name_tuple_from_root : NameTuple → FileMap → Option ContentsTuple
  | [], _ => some []
  | n :: ns, root =>
    match fsLookup root n with
    | none => none
    | some b =>
      match read_name_tuple_from_root ns root with
      | none => none
      | some bs => some (b :: bs)

/-- One `(dirpath, dirnames, filenames)` entry of `os.walk` over a
mutant's subtree, keeping the data the script uses: the directory's
path relative to the mutant root and its file names. -/
structure DirLevel where
  relpath : String
  filenames : List String
deriving DecidableEq

/-- A mutant subdirectory: its id (the directory name), the walk of its
subtree, and its file contents keyed by (relpath, filename). -/
structure Mutant where
  mid : String
  levels : List DirLevel
  fs : FileMap
deriving DecidableEq

/-- Lexicographic comparison of code-point sequences — the order
Python's `sorted` uses on strings. -/
def charListLe : List Char → List Char → Bool
  | [], _ => true
  | _ :: _, [] => false
  | c :: cs, d :: ds =>
    if c.val < d.val then true
    else if d.val < c.val then false
    else charListLe cs ds

def strLe (a b : String) : Bool := charListLe a.data b.data

/-- Python's `sorted` on strings: stable ascending insertion sort. -/
def insertSorted (x : String) : List String → List String
  | [] => [x]
  | y :: ys => if strLe x y then x :: y :: ys else y :: insertSorted x ys

def sortNames (l : List String) : List String := l.foldr insertSorted []

/-- The `name_tuple` of a directory level: the sorted file names, each
joined onto the directory's path relative to the mutant root. -/
def ntOf (lvl : DirLevel) : NameTuple :=
  (sortNames lvl.filenames).map (fun f => (lvl.relpath, f))

/-- The inner level of the `hashes` dict: contents tuple ↦ class. -/
abbrev InnerMap := List (ContentsTuple × List String)

/-- The outer level of the `hashes` dict: name tuple ↦ inner dict. -/
abbrev Hashes := List (NameTuple × InnerMap)

/-- The mutable state of `run_tce`: the two-level `hashes` dict and the
`nonsingleton_equivalence_classes` list.  Since the Python list stores
aliases of the live set objects, the model stores the class locations
`(name_tuple, contents_tuple)`; the member list of an appended class is
always read back through the final `hashes`. -/
structure IndexState where
  hashes : Hashes
  interesting : List (NameTuple × ContentsTuple)
deriving DecidableEq

def initState : IndexState := ⟨[], []⟩

def innerClass : InnerMap → ContentsTuple → List String
  | [], _ => []
  | (c, cls) :: rest, ct => if ct = c then cls else innerClass rest ct

def hClassAt : Hashes → NameTuple → ContentsTuple → List String
  | [], _, _ => []
  | (k, inner) :: rest, nt, ct => if nt = k then innerClass inner ct else hClassAt rest nt ct

/-- The equivalence class currently stored at a given
(name tuple, contents tuple) location; `[]` when absent. -/
def classAt (st : IndexState) (nt : NameTuple) (ct : ContentsTuple) : List String :=
  hClassAt st.hashes nt ct

/-- `eq_class.add(mid)` on the set model. -/
def insertClass (cls : List String) (mid : String) : List String :=
  if mid ∈ cls then cls else cls ++ [mid]

def setInner : InnerMap → ContentsTuple → String → InnerMap
  | [], ct, mid => [(ct, insertClass [] mid)]
  | (c, cls) :: rest, ct, mid =>
    if ct = c then (c, insertClass cls mid) :: rest else (c, cls) :: setInner rest ct mid

def setOuter : Hashes → NameTuple → ContentsTuple → String → Hashes
  | [], nt, ct, mid => [(nt, setInner [] ct mid)]
  | (k, inner) :: rest, nt, ct, mid =>
    if nt = k then (k, setInner inner ct mid) :: rest else (k, inner) :: setOuter rest nt ct mid

/-- Steps 1d–1g of `run_tce` (also reused by step 2): the two nested
`setdefault`s, `eq_class.add(mid)`, and the `len(eq_class) == 2` append
to `nonsingleton_equivalence_classes`. -/
def insertMutant (st : IndexState) (nt : NameTuple) (ct : ContentsTuple) (mid : String) :
    IndexState :=
  let hs := setOuter st.hashes nt ct mid
  { hashes := hs
    interesting :=
      if (hClassAt hs nt ct).length = 2 then st.interesting ++ [(nt, ct)] else st.interesting }

/-- The body of the walk loop of `run_tce` for one `os.walk` entry:
skip a directory with no files, otherwise read contents and insert. -/
def processLevel (fs : FileMap) (mid : String) (st : IndexState) (lvl : DirLevel) :
    Option IndexState :=
  if lvl.filenames = [] then some st
  else
    match read_name_tuple_from_root (ntOf lvl) fs with
    | none => none
    | some ct => some (insertMutant st (ntOf lvl) ct mid)

def processLevels (fs : FileMap) (mid : String) : IndexState → List DirLevel → Option IndexState
  | st, [] => some st
  | st, l :: ls =>
    match processLevel fs mid st l with
    | none => none
    | some st₁ => processLevels fs mid st₁ ls

/-- One iteration of the outer mutant loop of `run_tce`. -/
def processMutant (st : IndexState) (m : Mutant) : Option IndexState :=
  processLevels m.fs m.mid st m.levels

def processMutants : IndexState → List Mutant → Option IndexState
  | st, [] => some st
  | st, m :: ms =>
    match processMutant st m with
    | none => none
    | some st₁ => processMutants st₁ ms

def keysOf (hs : Hashes) : List NameTuple := hs.map Prod.fst

/-- One iteration of step 2 of `run_tce`: read the baseline program's
artifacts at a discovered name tuple and insert id "0". -/
def baselineStep (program : FileMap) (st : IndexState) (nt : NameTuple) : Option IndexState :=
  match read_name_tuple_from_root nt program with
  | none => none
  | some ct => some (insertMutant st nt ct "0")

def baselineGo (program : FileMap) : IndexState → List NameTuple → Option IndexState
  | st, [] => some st
  | st, nt :: nts =>
    match baselineStep program st nt with
    | none => none
    | some st₁ => baselineGo program st₁ nts

/-- Step 2 of `run_tce`: the loop `for name_tuple in hashes` (the pass
never adds outer keys, so iterating the keys present at entry is the
dict's iteration behaviour). -/
def baselinePass (program : FileMap) (st : IndexState) : Option IndexState :=
  baselineGo program st (keysOf st.hashes)

/-- The member lists of `nonsingleton_equivalence_classes`, read back
through the final state of `hashes` (the Python list aliases the live
set objects). -/
def interestingClasses (st : IndexState) : List (List String) :=
  st.interesting.map (fun p => classAt st p.1 p.2)

/-- `[x for x in nonsingleton_equivalence_classes if '0' in x]` -/
def equivalent_mutants (st : IndexState) : List (List String) :=
  (interestingClasses st).filter (fun c => decide ("0" ∈ c))

/-- `[x for x in nonsingleton_equivalence_classes if '0' not in x]` -/
def redundant_mutants (st : IndexState) : List (List String) :=
  (interestingClasses st).filter (fun c => decide ("0" ∉ c))

/-- `sum([len(x) for x in nonsingleton_equivalence_classes]) - len(...)` -/
def num_total_equivalences (st : IndexState) : Int :=
  ((interestingClasses st).map (fun c => (c.length : Int))).sum -
    ((interestingClasses st).length : Int)

def num_equiv_mutants (st : IndexState) : Int :=
  ((equivalent_mutants st).map (fun c => (c.length : Int))).sum -
    ((equivalent_mutants st).length : Int)

def num_redundant_mutants (st : IndexState) : Int :=
  ((redundant_mutants st).map (fun c => (c.length : Int))).sum -
    ((redundant_mutants st).length : Int)

/-- The `progress` helper: returns without output when
`done % increment != 0`; otherwise it computes `100*done/total`, which
raises `ZeroDivisionError` when `total = 0` (modelled as `none`). -/
def progressModel (done total increment : Nat) : Option Unit :=
  if done % increment ≠ 0 then some ()
  else if total = 0 then none else some ()

/-- The mutant loop of `run_tce` with its interleaved
`progress(i+1, num_mutants, increment=5)` calls. -/
def runMutantsLoop (n : Nat) : Nat → IndexState → List Mutant → Option IndexState
  | _, st, [] => some st
  | i, st, m :: ms =>
    match processMutant st m with
    | none => none
    | some st₁ =>
      match progressModel (i + 1) n 5 with
      | none => none
      | some _ => runMutantsLoop n (i + 1) st₁ ms

/-- The baseline loop of `run_tce` with its interleaved
`progress(i+1, num_name_tuples, increment=5)` calls. -/
def runBaselineLoop (program : FileMap) (k : Nat) :
    Nat → IndexState → List NameTuple → Option IndexState
  | _, st, [] => some st
  | i, st, nt :: nts =>
    match baselineStep program st nt with
    | none => none
    | some st₁ =>
      match progressModel (i + 1) k 5 with
      | none => none
      | some _ => runBaselineLoop program k (i + 1) st₁ nts

/-- The whole of `run_tce`, progress calls included: the mutant loop,
`progress(num_mutants, num_mutants, newline=True)`, the baseline loop,
`progress(num_name_tuples, num_name_tuples, newline=True)`, then the
summary counts. -/
def run_tce (mutants : List Mutant) (program : FileMap) : Option (Int × Int × Int) :=
  let n := mutants.length
  match runMutantsLoop n 0 initState mutants with
  | none => none
  | some st =>
    match progressModel n n 1 with
    | none => none
    | some _ =>
      let k := (keysOf st.hashes).length
      match runBaselineLoop program k 0 st (keysOf st.hashes) with
      | none => none
      | some st₁ =>
        match progressModel k k 1 with
        | none => none
        | some _ =>
          some (num_total_equivalences st₁, num_equiv_mutants st₁, num_redundant_mutants st₁)

/-! ## The equivalence-set comparator (`compare_equiv_files.py`) -/

/-- A per-file index `mid_map`: mutant id ↦ member set of a line, as an
insertion-ordered association list (Python dict). -/
abbrev MidMap := List (String × List String)

def mmLookup : MidMap → String → Option (List String)
  | [], _ => none
  | (k, v) :: rest, x => if x = k then some v else mmLookup rest x

/-- `mid_map[elem] = set(equiv_class)`: a dict assignment rewrites the
value of an existing key in place, otherwise appends the key. -/
def mmAssign : MidMap → String → List String → MidMap
  | [], k, v => [(k, v)]
  | (k₁, v₁) :: rest, k, v =>
    if k = k₁ then (k₁, v) :: rest else (k₁, v₁) :: mmAssign rest k v

/-- The `mid_map` building loops: for each parsed line, assign every
member of the line to the line's member set. -/
def buildMidMap (equivs : List (List String)) : MidMap :=
  equivs.foldl (fun m line => line.foldl (fun m₁ e => mmAssign m₁ e line) m) []

def mmKeys (m : MidMap) : List String := m.map Prod.fst

/-- `ec1.issubset(ec2)` on the list model of sets. -/
def subsetB (a b : List String) : Bool :=
  a.all (fun x => decide (x ∈ b))

/-- The inner collection loop: walk the primary class's members, skip
members already covered (`nested_visited`) or absent from the other
file's index, and append each newly found class of the other file.
Returns the final `nested_visited` and the collected class list. -/
def collectOther (mmOther : MidMap) : List String → List String → List (List String) →
    List String × List (List String)
  | [], nv, acc => (nv, acc)
  | m :: ms, nv, acc =>
    if m ∈ nv then collectOther mmOther ms nv acc
    else
      match mmLookup mmOther m with
      | none => collectOther mmOther ms nv acc
      | some ec => collectOther mmOther ms (nv ++ ec) (acc ++ [ec])

/-- One reported line of a comparator pass. -/
inductive Report where
  | structural (ec : List String)
  | mismatch (ec : List String) (others : List (List String))
deriving DecidableEq

/-- The first pass of `main` (file 1 primary, lines 49–74): for each
unvisited id of the primary index, fetch its class, mark it visited,
collect the corresponding classes of the other file, and report a
structural disagreement when their number differs from one, or a
mismatch when the primary class is not a subset of the single
corresponding class. -/
def visitPass (mm1 mm2 : MidMap) : List String → List String → List Report
  | [], _ => []
  | mid :: rest, visited =>
    if mid ∈ visited then visitPass mm1 mm2 rest visited
    else
      match mmLookup mm1 mid with
      | none => visitPass mm1 mm2 rest visited
      | some ec1 =>
        let cs := (collectOther mm2 ec1 [] []).2
        let reps :=
          match cs with
          | [c] => if subsetB ec1 c then [] else [Report.mismatch ec1 cs]
          | _ => [Report.structural ec1]
        reps ++ visitPass mm1 mm2 rest (visited ++ ec1)

/-- The second pass of `main` (file 2 primary, lines 76–101).  The
source reuses the variable `ec2` for the classes fetched from file 1
inside the inner loop, so after the loop `ec2` denotes the last
collected class (or the primary class when nothing was collected);
the reports and the subset check use that rebound value. -/
def visitPassB (mm2 mm1 : MidMap) : List String → List String → List Report
  | [], _ => []
  | mid :: rest, visited =>
    if mid ∈ visited then visitPassB mm2 mm1 rest visited
    else
      match mmLookup mm2 mid with
      | none => visitPassB mm2 mm1 rest visited
      | some ec2 =>
        let cs := (collectOther mm1 ec2 [] []).2
        let ecFinal := cs.getLastD ec2
        let reps :=
          match cs with
          | [c] => if subsetB ecFinal c then [] else [Report.mismatch ecFinal cs]
          | _ => [Report.structural ecFinal]
        reps ++ visitPassB mm2 mm1 rest (visited ++ ec2)

/-- The whole of `main` on already-tokenized lines: build both indexes
and run the two passes, each with its visited set seeded `{'0'}`. -/
def compareFiles (equivs1 equivs2 : List (List String)) : List Report × List Report :=
  let mm1 := buildMidMap equivs1
  let mm2 := buildMidMap equivs2
  (visitPass mm1 mm2 (mmKeys mm1) ["0"], visitPassB mm2 mm1 (mmKeys mm2) ["0"])

/-- Modelled from the claim C10's wording: the member set of the final
line on which an id occurs (later lines take precedence). -/
def lastLineContaining : List (List String) → String → Option (List String)
  | [], _ => none
  | l :: ls, x =>
    match lastLineContaining ls x with
    | some l₁ => some l₁
    | none => if x ∈ l then some l else none

/-- Boolean pairwise disjointness of the classes of a file. -/
def disjointLines : List (List String) → Bool
  | [] => true
  | l :: ls => ls.all (fun l₂ => l.all (fun x => decide (x ∉ l₂))) && disjointLines ls

/-! ## Lemmas: the `mid_map` index -/

theorem mmLookup_mmAssign (m : MidMap) (k : String) (v : List String) (x : String) :
    mmLookup (mmAssign m k v) x = if x = k then some v else mmLookup m x := by
  induction m with
  | nil => simp [mmAssign, mmLookup]
  | cons e rest ih =>
    obtain ⟨k₁, v₁⟩ := e
    by_cases hk : k = k₁
    · subst hk
      simp only [mmAssign, if_pos rfl, mmLookup]
      by_cases hx : x = k <;> simp [hx]
    · simp only [mmAssign, if_neg hk, mmLookup, ih]
      by_cases hx₁ : x = k₁
      · subst hx₁
        simp [Ne.symm hk]
      · simp [hx₁]

theorem mmLookup_assignLine (line line₀ : List String) (m : MidMap) (x : String) :
    mmLookup (line.foldl (fun m₁ e => mmAssign m₁ e line₀) m) x =
      if x ∈ line then some line₀ else mmLookup m x := by
  induction line generalizing m with
  | nil => simp
  | cons e es ih =>
    simp only [List.foldl_cons, ih, mmLookup_mmAssign, List.mem_cons]
    by_cases hx : x ∈ es
    · simp [hx]
    · by_cases he : x = e <;> simp [hx, he]

theorem mmLookup_buildGo (ls : List (List String)) (m : MidMap) (x : String) :
    mmLookup (ls.foldl (fun m₁ line => line.foldl (fun m₂ e => mmAssign m₂ e line) m₁) m) x =
      match lastLineContaining ls x with
      | some l => some l
      | none => mmLookup m x := by
  induction ls generalizing m with
  | nil => simp [lastLineContaining]
  | cons l ls ih =>
    simp only [List.foldl_cons, ih, lastLineContaining, mmLookup_assignLine]
    cases lastLineContaining ls x with
    | some l₁ => simp
    | none =>
      by_cases hx : x ∈ l <;> simp [hx]

theorem mmLookup_buildMidMap (ls : List (List String)) (x : String) :
    mmLookup (buildMidMap ls) x = lastLineContaining ls x := by
  unfold buildMidMap
  rw [mmLookup_buildGo]
  cases lastLineContaining ls x <;> simp [mmLookup]

/-- C10: the per-file index maps every id occurring in the file to the
member set of the final line containing it, and ids occurring nowhere
to nothing: for each id, both passes consult exactly the last line on
which the id occurs. -/
theorem buildMidMap_last_line_wins (ls : List (List String)) (x : String) :
    mmLookup (buildMidMap ls) x = lastLineContaining ls x :=
  mmLookup_buildMidMap ls x

/-! ## Lemmas: summary counts -/

theorem sum_map_sub_length (L : List (List String)) :
    (L.map (fun c => (c.length : Int))).sum - (L.length : Int) =
      (L.map (fun c => (c.length : Int) - 1)).sum := by
  induction L with
  | nil => simp
  | cons c cs ih =>
    simp only [List.map_cons, List.sum_cons, List.length_cons]
    push_cast
    omega

/-- C5: each of the three summary counters equals the sum of
(class size − 1) over its class collection: all interesting classes for
`num_total_equivalences`, the equivalent classes for
`num_equiv_mutants`, the redundant classes for
`num_redundant_mutants`. -/
theorem summary_counts_eq_sum_sizes_minus_one (st : IndexState) :
    num_total_equivalences st =
        ((interestingClasses st).map (fun c => (c.length : Int) - 1)).sum ∧
      num_equiv_mutants st =
        ((equivalent_mutants st).map (fun c => (c.length : Int) - 1)).sum ∧
      num_redundant_mutants st =
        ((redundant_mutants st).map (fun c => (c.length : Int) - 1)).sum := by
  refine ⟨?_, ?_, ?_⟩ <;>
    simp only [num_total_equivalences, num_equiv_mutants, num_redundant_mutants,
      sum_map_sub_length]

/-! ## The comparator's second pass and the baseline-id exclusion -/

/-- C6 (evaluation at the failing input): with file A = `1 2` and
file B = `1 2 3`, B's class `{1,2,3}` corresponds to exactly one class
of A, namely `{1,2}`, and is not a subset of it, yet the B-primary pass
of the source reports nothing — because the source rebinds `ec2` to the
class fetched from file A, the subset check compares that class with
itself.  The A-primary reconciliation algorithm applied with B as the
primary side (second conjunct) does report the required mismatch, so
the two passes do not behave the same. -/
theorem visitPassB_misses_subset_mismatch :
    (compareFiles [["1", "2"]] [["1", "2", "3"]]).2 = [] ∧
      visitPass (buildMidMap [["1", "2", "3"]]) (buildMidMap [["1", "2"]])
          (mmKeys (buildMidMap [["1", "2", "3"]])) ["0"] =
        [Report.mismatch ["1", "2", "3"] [["1", "2"]]] := by
  constructor <;> rfl

/-- C7 (evaluation at the failing input): with primary class `{1, 0}`
and other file `0 2`, the member token "0" does contribute the
corresponding class `{0,2}` (first conjunct), without it no class would
be collected (second conjunct), and that lone contribution turns the
zero-correspondence case into a one-correspondence case, so the pass
reports a subset mismatch instead of a structural disagreement (third
conjunct).  The id "0" is only excluded as a primary visit seed; the
`mids` set built with `'0'` removed is never used. -/
theorem baseline_id_contributes_other_class :
    (collectOther (buildMidMap [["0", "2"]]) ["1", "0"] [] []).2 = [["0", "2"]] ∧
      (collectOther (buildMidMap [["0", "2"]]) ["1"] [] []).2 = [] ∧
      (compareFiles [["1", "0"]] [["0", "2"]]).1 =
        [Report.mismatch ["1", "0"] [["0", "2"]]] := by
  refine ⟨rfl, rfl, rfl⟩

/-! ## The empty-input behaviour of `run_tce` -/

/-- C8 (evaluation at the failing inputs): with zero mutant
subdirectories, and likewise with one mutant having no artifact file
anywhere, `run_tce` fails — the end-of-loop `progress(total, total)`
call divides by a zero total — even though the classification core
itself completes with an empty result (last two conjuncts). -/
theorem run_tce_fails_on_empty_inputs :
    run_tce [] [] = none ∧
      run_tce [⟨"1", [⟨".", []⟩], []⟩] [] = none ∧
      processMutants initState [⟨"1", [⟨".", []⟩], []⟩] = some initState ∧
      interestingClasses initState = [] ∧
      num_total_equivalences initState = 0 := by
  refine ⟨rfl, rfl, rfl, rfl, rfl⟩

/-! ## Lemmas: the two-level index -/

theorem mem_insertClass_iff (cls : List String) (mid x : String) :
    x ∈ insertClass cls mid ↔ x ∈ cls ∨ x = mid := by
  unfold insertClass
  by_cases h : mid ∈ cls
  · simp only [if_pos h]
    constructor
    · exact Or.inl
    · rintro (hx | rfl)
      · exact hx
      · exact h
  · simp [if_neg h]

theorem length_insertClass_of_not_mem {cls : List String} {mid : String} (h : mid ∉ cls) :
    (insertClass cls mid).length = cls.length + 1 := by
  simp [insertClass, if_neg h]

theorem length_insertClass_of_mem {cls : List String} {mid : String} (h : mid ∈ cls) :
    (insertClass cls mid).length = cls.length := by
  simp [insertClass, if_pos h]

theorem innerClass_setInner_same (inner : InnerMap) (ct : ContentsTuple) (mid : String) :
    innerClass (setInner inner ct mid) ct = insertClass (innerClass inner ct) mid := by
  induction inner with
  | nil => simp [setInner, innerClass]
  | cons e rest ih =>
    obtain ⟨c, cls⟩ := e
    by_cases h : ct = c
    · subst h
      simp [setInner, innerClass]
    · simp [setInner, innerClass, h, ih]

theorem innerClass_setInner_other {ct' ct : ContentsTuple} (inner : InnerMap) (mid : String)
    (h : ct' ≠ ct) :
    innerClass (setInner inner ct mid) ct' = innerClass inner ct' := by
  induction inner with
  | nil => simp [setInner, innerClass, h]
  | cons e rest ih =>
    obtain ⟨c, cls⟩ := e
    by_cases hc : ct = c
    · subst hc
      simp [setInner, innerClass, h]
    · by_cases hc' : ct' = c
      · subst hc'
        simp [setInner, innerClass, hc]
      · simp [setInner, innerClass, hc, hc', ih]

theorem hClassAt_setOuter_same (hs : Hashes) (nt : NameTuple) (ct : ContentsTuple)
    (mid : String) :
    hClassAt (setOuter hs nt ct mid) nt ct = insertClass (hClassAt hs nt ct) mid := by
  induction hs with
  | nil => simp [setOuter, hClassAt, innerClass_setInner_same, innerClass]
  | cons e rest ih =>
    obtain ⟨k, inner⟩ := e
    by_cases h : nt = k
    · subst h
      simp [setOuter, hClassAt, innerClass_setInner_same]
    · simp [setOuter, hClassAt, h, ih]

theorem hClassAt_setOuter_other {nt' nt : NameTuple} {ct' ct : ContentsTuple} (hs : Hashes)
    (mid : String) (h : ¬(nt' = nt ∧ ct' = ct)) :
    hClassAt (setOuter hs nt ct mid) nt' ct' = hClassAt hs nt' ct' := by
  induction hs with
  | nil =>
    by_cases hn : nt' = nt
    · subst hn
      have hc : ct' ≠ ct := fun hx => h ⟨rfl, hx⟩
      simp [setOuter, hClassAt, innerClass_setInner_other _ _ hc, innerClass, hc]
    · simp [setOuter, hClassAt, hn]
  | cons e rest ih =>
    obtain ⟨k, inner⟩ := e
    by_cases hk : nt = k
    · subst hk
      by_cases hn : nt' = nt
      · subst hn
        have hc : ct' ≠ ct := fun hx => h ⟨rfl, hx⟩
        simp [setOuter, hClassAt, innerClass_setInner_other _ _ hc]
      · simp [setOuter, hClassAt, hn]
    · by_cases hn : nt' = k
      · subst hn
        simp [setOuter, hClassAt, hk, Ne.symm hk]
      · simp [setOuter, hClassAt, hk, hn, ih]

theorem classAt_insertMutant_same (st : IndexState) (nt : NameTuple) (ct : ContentsTuple)
    (mid : String) :
    classAt (insertMutant st nt ct mid) nt ct = insertClass (classAt st nt ct) mid := by
  simp [classAt, insertMutant, hClassAt_setOuter_same]

theorem classAt_insertMutant_other {nt' nt : NameTuple} {ct' ct : ContentsTuple}
    (st : IndexState) (mid : String) (h : ¬(nt' = nt ∧ ct' = ct)) :
    classAt (insertMutant st nt ct mid) nt' ct' = classAt st nt' ct' := by
  simp [classAt, insertMutant, hClassAt_setOuter_other _ _ h]

theorem interesting_insertMutant (st : IndexState) (nt : NameTuple) (ct : ContentsTuple)
    (mid : String) :
    (insertMutant st nt ct mid).interesting =
      if (insertClass (classAt st nt ct) mid).length = 2 then st.interesting ++ [(nt, ct)]
      else st.interesting := by
  simp [insertMutant, hClassAt_setOuter_same, classAt]

theorem classAt_insertMutant_mono {st : IndexState} {nt' nt : NameTuple}
    {ct' ct : ContentsTuple} {mid x : String} (h : x ∈ classAt st nt' ct') :
    x ∈ classAt (insertMutant st nt ct mid) nt' ct' := by
  by_cases he : nt' = nt ∧ ct' = ct
  · obtain ⟨rfl, rfl⟩ := he
    rw [classAt_insertMutant_same, mem_insertClass_iff]
    exact Or.inl h
  · rwa [classAt_insertMutant_other _ _ he]

theorem mem_classAt_insertMutant {st : IndexState} {nt' nt : NameTuple}
    {ct' ct : ContentsTuple} {mid x : String}
    (h : x ∈ classAt (insertMutant st nt ct mid) nt' ct') :
    x ∈ classAt st nt' ct' ∨ (x = mid ∧ nt' = nt ∧ ct' = ct) := by
  by_cases he : nt' = nt ∧ ct' = ct
  · obtain ⟨rfl, rfl⟩ := he
    rw [classAt_insertMutant_same, mem_insertClass_iff] at h
    rcases h with h | h
    · exact Or.inl h
    · exact Or.inr ⟨h, rfl, rfl⟩
  · rw [classAt_insertMutant_other _ _ he] at h
    exact Or.inl h

/-! ## Lemmas: class membership through the processing loops -/

theorem processLevel_eq_cases {fs : FileMap} {mid : String} {st st₁ : IndexState}
    {lvl : DirLevel} (h : processLevel fs mid st lvl = some st₁) :
    (lvl.filenames = [] ∧ st₁ = st) ∨
      (lvl.filenames ≠ [] ∧ ∃ ct₀, read_name_tuple_from_root (ntOf lvl) fs = some ct₀ ∧
        st₁ = insertMutant st (ntOf lvl) ct₀ mid) := by
  unfold processLevel at h
  by_cases hf : lvl.filenames = []
  · rw [if_pos hf] at h
    exact Or.inl ⟨hf, (Option.some.inj h).symm⟩
  · rw [if_neg hf] at h
    cases hr : read_name_tuple_from_root (ntOf lvl) fs with
    | none => rw [hr] at h; exact Option.noConfusion h
    | some ct₀ =>
      rw [hr] at h
      exact Or.inr ⟨hf, ct₀, rfl, (Option.some.inj h).symm⟩

theorem processLevel_mono {fs : FileMap} {mid : String} {st st₁ : IndexState} {lvl : DirLevel}
    {nt : NameTuple} {ct : ContentsTuple} {x : String}
    (h : processLevel fs mid st lvl = some st₁) (hx : x ∈ classAt st nt ct) :
    x ∈ classAt st₁ nt ct := by
  rcases processLevel_eq_cases h with ⟨_, rfl⟩ | ⟨_, ct₀, _, rfl⟩
  · exact hx
  · exact classAt_insertMutant_mono hx

theorem mem_classAt_processLevel {fs : FileMap} {mid : String} {st st₁ : IndexState}
    {lvl : DirLevel} {nt : NameTuple} {ct : ContentsTuple} {x : String}
    (h : processLevel fs mid st lvl = some st₁) (hx : x ∈ classAt st₁ nt ct) :
    x ∈ classAt st nt ct ∨ (x = mid ∧ nt = ntOf lvl ∧ lvl.filenames ≠ []) := by
  rcases processLevel_eq_cases h with ⟨_, rfl⟩ | ⟨hf, ct₀, _, rfl⟩
  · exact Or.inl hx
  · rcases mem_classAt_insertMutant hx with h₁ | ⟨h₁, h₂, _⟩
    · exact Or.inl h₁
    · exact Or.inr ⟨h₁, h₂, hf⟩

theorem processLevels_mono {fs : FileMap} {mid : String} {ls : List DirLevel} :
    ∀ {st st₁ : IndexState} {nt : NameTuple} {ct : ContentsTuple} {x : String},
      processLevels fs mid st ls = some st₁ → x ∈ classAt st nt ct → x ∈ classAt st₁ nt ct := by
  induction ls with
  | nil =>
    intro st st₁ nt ct x h hx
    obtain rfl := Option.some.inj h
    exact hx
  | cons l ls ih =>
    intro st st₁ nt ct x h hx
    unfold processLevels at h
    cases hp : processLevel fs mid st l with
    | none => rw [hp] at h; exact Option.noConfusion h
    | some st₂ =>
      rw [hp] at h
      exact ih h (processLevel_mono hp hx)

theorem mem_classAt_processLevels {fs : FileMap} {mid : String} {ls : List DirLevel} :
    ∀ {st st₁ : IndexState} {nt : NameTuple} {ct : ContentsTuple} {x : String},
      processLevels fs mid st ls = some st₁ → x ∈ classAt st₁ nt ct →
      x ∈ classAt st nt ct ∨ (x = mid ∧ ∃ l ∈ ls, nt = ntOf l ∧ l.filenames ≠ []) := by
  induction ls with
  | nil =>
    intro st st₁ nt ct x h hx
    obtain rfl := Option.some.inj h
    exact Or.inl hx
  | cons l ls ih =>
    intro st st₁ nt ct x h hx
    unfold processLevels at h
    cases hp : processLevel fs mid st l with
    | none => rw [hp] at h; exact Option.noConfusion h
    | some st₂ =>
      rw [hp] at h
      rcases ih h hx with h₁ | ⟨h₁, l₁, hl₁, h₂⟩
      · rcases mem_classAt_processLevel hp h₁ with h₂ | ⟨h₂, h₃, h₄⟩
        · exact Or.inl h₂
        · exact Or.inr ⟨h₂, l, List.mem_cons_self l ls, h₃, h₄⟩
      · exact Or.inr ⟨h₁, l₁, List.mem_cons_of_mem l hl₁, h₂⟩

theorem processMutant_mono {st st₁ : IndexState} {m : Mutant} {nt : NameTuple}
    {ct : ContentsTuple} {x : String} (h : processMutant st m = some st₁)
    (hx : x ∈ classAt st nt ct) : x ∈ classAt st₁ nt ct :=
  processLevels_mono h hx

theorem mem_classAt_processMutant {st st₁ : IndexState} {m : Mutant} {nt : NameTuple}
    {ct : ContentsTuple} {x : String} (h : processMutant st m = some st₁)
    (hx : x ∈ classAt st₁ nt ct) : x ∈ classAt st nt ct ∨ x = m.mid := by
  rcases mem_classAt_processLevels h hx with h₁ | ⟨h₁, _⟩
  · exact Or.inl h₁
  · exact Or.inr h₁

theorem processMutants_mono {ms : List Mutant} :
    ∀ {st st₁ : IndexState} {nt : NameTuple} {ct : ContentsTuple} {x : String},
      processMutants st ms = some st₁ → x ∈ classAt st nt ct → x ∈ classAt st₁ nt ct := by
  induction ms with
  | nil =>
    intro st st₁ nt ct x h hx
    obtain rfl := Option.some.inj h
    exact hx
  | cons m ms ih =>
    intro st st₁ nt ct x h hx
    unfold processMutants at h
    cases hp : processMutant st m with
    | none => rw [hp] at h; exact Option.noConfusion h
    | some st₂ =>
      rw [hp] at h
      exact ih h (processMutant_mono hp hx)

theorem mem_classAt_processMutants {ms : List Mutant} :
    ∀ {st st₁ : IndexState} {nt : NameTuple} {ct : ContentsTuple} {x : String},
      processMutants st ms = some st₁ → x ∈ classAt st₁ nt ct →
      x ∈ classAt st nt ct ∨ ∃ m ∈ ms, x = m.mid := by
  induction ms with
  | nil =>
    intro st st₁ nt ct x h hx
    obtain rfl := Option.some.inj h
    exact Or.inl hx
  | cons m ms ih =>
    intro st st₁ nt ct x h hx
    unfold processMutants at h
    cases hp : processMutant st m with
    | none => rw [hp] at h; exact Option.noConfusion h
    | some st₂ =>
      rw [hp] at h
      rcases ih h hx with h₁ | ⟨m₁, hm₁, h₂⟩
      · rcases mem_classAt_processMutant hp h₁ with h₂ | h₂
        · exact Or.inl h₂
        · exact Or.inr ⟨m, List.mem_cons_self m ms, h₂⟩
      · exact Or.inr ⟨m₁, List.mem_cons_of_mem m hm₁, h₂⟩

theorem baselineStep_eq {program : FileMap} {st st₁ : IndexState} {nt : NameTuple}
    (h : baselineStep program st nt = some st₁) :
    ∃ ct₀, read_name_tuple_from_root nt program = some ct₀ ∧
      st₁ = insertMutant st nt ct₀ "0" := by
  unfold baselineStep at h
  cases hr : read_name_tuple_from_root nt program with
  | none => rw [hr] at h; exact Option.noConfusion h
  | some ct₀ =>
    rw [hr] at h
    exact ⟨ct₀, rfl, (Option.some.inj h).symm⟩

theorem baselineGo_mono {program : FileMap} {nts : List NameTuple} :
    ∀ {st st₁ : IndexState} {nt : NameTuple} {ct : ContentsTuple} {x : String},
      baselineGo program st nts = some st₁ → x ∈ classAt st nt ct → x ∈ classAt st₁ nt ct := by
  induction nts with
  | nil =>
    intro st st₁ nt ct x h hx
    obtain rfl := Option.some.inj h
    exact hx
  | cons nt₀ nts ih =>
    intro st st₁ nt ct x h hx
    unfold baselineGo at h
    cases hp : baselineStep program st nt₀ with
    | none => rw [hp] at h; exact Option.noConfusion h
    | some st₂ =>
      rw [hp] at h
      obtain ⟨ct₀, _, rfl⟩ := baselineStep_eq hp
      exact ih h (classAt_insertMutant_mono hx)

theorem mem_classAt_baselineGo {program : FileMap} {nts : List NameTuple} :
    ∀ {st st₁ : IndexState} {nt : NameTuple} {ct : ContentsTuple} {x : String},
      baselineGo program st nts = some st₁ → x ∈ classAt st₁ nt ct →
      x ∈ classAt st nt ct ∨ (x = "0" ∧ nt ∈ nts) := by
  induction nts with
  | nil =>
    intro st st₁ nt ct x h hx
    obtain rfl := Option.some.inj h
    exact Or.inl hx
  | cons nt₀ nts ih =>
    intro st st₁ nt ct x h hx
    unfold baselineGo at h
    cases hp : baselineStep program st nt₀ with
    | none => rw [hp] at h; exact Option.noConfusion h
    | some st₂ =>
      rw [hp] at h
      rcases ih h hx with h₁ | ⟨h₁, h₂⟩
      · obtain ⟨ct₀, _, rfl⟩ := baselineStep_eq hp
        rcases mem_classAt_insertMutant h₁ with h₂ | ⟨h₂, h₃, _⟩
        · exact Or.inl h₂
        · exact Or.inr ⟨h₂, h₃ ▸ List.mem_cons_self nt₀ nts⟩
      · exact Or.inr ⟨h₁, List.mem_cons_of_mem nt₀ h₂⟩

/-! ## C1: per-level registration of every mutant -/

theorem mem_after_processLevels {fs : FileMap} {mid : String} {ls : List DirLevel} :
    ∀ {st st₁ : IndexState}, processLevels fs mid st ls = some st₁ →
      ∀ lvl ∈ ls, lvl.filenames ≠ [] →
      ∃ ct, read_name_tuple_from_root (ntOf lvl) fs = some ct ∧
        mid ∈ classAt st₁ (ntOf lvl) ct := by
  induction ls with
  | nil =>
    intro st st₁ _ lvl hl
    exact absurd hl (List.not_mem_nil lvl)
  | cons l ls ih =>
    intro st st₁ h lvl hl hf
    unfold processLevels at h
    cases hp : processLevel fs mid st l with
    | none => rw [hp] at h; exact Option.noConfusion h
    | some st₂ =>
      rw [hp] at h
      rcases List.mem_cons.mp hl with rfl | hl₁
      · rcases processLevel_eq_cases hp with ⟨hf₁, _⟩ | ⟨_, ct₀, hr, rfl⟩
        · exact absurd hf₁ hf
        · refine ⟨ct₀, hr, processLevels_mono h ?_⟩
          rw [classAt_insertMutant_same, mem_insertClass_iff]
          exact Or.inr rfl
      · exact ih h lvl hl₁ hf

theorem mem_after_processMutants {ms : List Mutant} :
    ∀ {st st₁ : IndexState}, processMutants st ms = some st₁ →
      ∀ m ∈ ms, ∀ lvl ∈ m.levels, lvl.filenames ≠ [] →
      ∃ ct, read_name_tuple_from_root (ntOf lvl) m.fs = some ct ∧
        m.mid ∈ classAt st₁ (ntOf lvl) ct := by
  induction ms with
  | nil =>
    intro st st₁ _ m hm
    exact absurd hm (List.not_mem_nil m)
  | cons m₀ ms ih =>
    intro st st₁ h m hm lvl hl hf
    unfold processMutants at h
    cases hp : processMutant st m₀ with
    | none => rw [hp] at h; exact Option.noConfusion h
    | some st₂ =>
      rw [hp] at h
      rcases List.mem_cons.mp hm with rfl | hm₁
      · obtain ⟨ct, hr, hmem⟩ := mem_after_processLevels hp lvl hl hf
        exact ⟨ct, hr, processMutants_mono h hmem⟩
      · exact ih h m hm₁ lvl hl hf

/-- C1: after the indexing pass, every mutant is registered once per
directory level of its subtree that contains at least one file — the
`ArtifactSetKey` being that level's sorted artifact names relative to
the mutant root (`ntOf`), the `ContentKey` the tuple of those files'
raw bytes read in key order — while a level with zero files leaves the
state untouched.  A mutant with several such levels thus registers
under several distinct keys. -/
theorem run_tce_registers_every_level (mutants : List Mutant) (st : IndexState)
    (h : processMutants initState mutants = some st) :
    ∀ m ∈ mutants, ∀ lvl ∈ m.levels,
      (lvl.filenames ≠ [] →
        ∃ ct, read_name_tuple_from_root (ntOf lvl) m.fs = some ct ∧
          m.mid ∈ classAt st (ntOf lvl) ct) ∧
      (lvl.filenames = [] → ∀ s, processLevel m.fs m.mid s lvl = some s) := by
  intro m hm lvl hl
  constructor
  · exact mem_after_processMutants h m hm lvl hl
  · intro hf s
    simp [processLevel, hf]

def mutW1 : Mutant :=
  ⟨"1", [⟨"p", ["b", "a"]⟩, ⟨"q", []⟩], [(("p", "a"), [1]), (("p", "b"), [2])]⟩

def mutsW1 : List Mutant := [mutW1]

def lvlW1 : DirLevel := ⟨"p", ["b", "a"]⟩

def stW1 : IndexState := (processMutants initState mutsW1).getD initState

theorem run_tce_registers_every_level_witness :
    ∃ ct, read_name_tuple_from_root (ntOf lvlW1) mutW1.fs = some ct ∧
      mutW1.mid ∈ classAt stW1 (ntOf lvlW1) ct :=
  (run_tce_registers_every_level mutsW1 stW1 (by decide) mutW1 (by decide) lvlW1
    (by decide)).1 (by decide)

/-! ## C2: the baseline pass inserts "0" exactly once per key -/

theorem hashes_insertMutant (st : IndexState) (nt : NameTuple) (ct : ContentsTuple)
    (mid : String) : (insertMutant st nt ct mid).hashes = setOuter st.hashes nt ct mid := rfl

theorem keysOf_cons (e : NameTuple × InnerMap) (hs : Hashes) :
    keysOf (e :: hs) = e.1 :: keysOf hs := rfl

theorem keysOf_setOuter (hs : Hashes) (nt : NameTuple) (ct : ContentsTuple) (mid : String) :
    keysOf (setOuter hs nt ct mid) =
      if nt ∈ keysOf hs then keysOf hs else keysOf hs ++ [nt] := by
  induction hs with
  | nil => simp [setOuter, keysOf]
  | cons e rest ih =>
    obtain ⟨k, inner⟩ := e
    by_cases h : nt = k
    · subst h
      simp [setOuter, keysOf_cons]
    · simp only [setOuter, if_neg h, keysOf_cons, ih, List.mem_cons]
      by_cases h₂ : nt ∈ keysOf rest
      · simp [h₂]
      · simp [h₂, h]

theorem nodup_keysOf_setOuter {hs : Hashes} (h : (keysOf hs).Nodup) (nt : NameTuple)
    (ct : ContentsTuple) (mid : String) : (keysOf (setOuter hs nt ct mid)).Nodup := by
  rw [keysOf_setOuter]
  by_cases hm : nt ∈ keysOf hs
  · simpa [hm]
  · have hd : (keysOf hs).Disjoint [nt] := by
      intro a ha hmem
      rw [List.mem_singleton] at hmem
      subst hmem
      exact hm ha
    simpa [hm] using h.append (List.nodup_singleton nt) hd

theorem nodupKeys_processLevel {fs : FileMap} {mid : String} {st st₁ : IndexState}
    {lvl : DirLevel} (h : processLevel fs mid st lvl = some st₁)
    (hn : (keysOf st.hashes).Nodup) : (keysOf st₁.hashes).Nodup := by
  rcases processLevel_eq_cases h with ⟨_, rfl⟩ | ⟨_, ct₀, _, rfl⟩
  · exact hn
  · rw [hashes_insertMutant]
    exact nodup_keysOf_setOuter hn _ _ _

theorem nodupKeys_processLevels {fs : FileMap} {mid : String} {ls : List DirLevel} :
    ∀ {st st₁ : IndexState}, processLevels fs mid st ls = some st₁ →
      (keysOf st.hashes).Nodup → (keysOf st₁.hashes).Nodup := by
  induction ls with
  | nil =>
    intro st st₁ h hn
    obtain rfl := Option.some.inj h
    exact hn
  | cons l ls ih =>
    intro st st₁ h hn
    unfold processLevels at h
    cases hp : processLevel fs mid st l with
    | none => rw [hp] at h; exact Option.noConfusion h
    | some st₂ =>
      rw [hp] at h
      exact ih h (nodupKeys_processLevel hp hn)

theorem nodupKeys_processMutants {ms : List Mutant} :
    ∀ {st st₁ : IndexState}, processMutants st ms = some st₁ →
      (keysOf st.hashes).Nodup → (keysOf st₁.hashes).Nodup := by
  induction ms with
  | nil =>
    intro st st₁ h hn
    obtain rfl := Option.some.inj h
    exact hn
  | cons m ms ih =>
    intro st st₁ h hn
    unfold processMutants at h
    cases hp : processMutant st m with
    | none => rw [hp] at h; exact Option.noConfusion h
    | some st₂ =>
      rw [hp] at h
      exact ih h (nodupKeys_processLevels hp hn)

theorem baselineGo_spec {program : FileMap} {nts : List NameTuple} :
    ∀ {st st₁ : IndexState}, baselineGo program st nts = some st₁ →
      nts.Nodup →
      (∀ nt ∈ nts, ∀ ct, "0" ∉ classAt st nt ct) →
      (∀ nt ∈ nts, ∃ ct, read_name_tuple_from_root nt program = some ct ∧
        "0" ∈ classAt st₁ nt ct ∧ ∀ ct₁, "0" ∈ classAt st₁ nt ct₁ → ct₁ = ct) ∧
      (∀ nt ct, "0" ∈ classAt st₁ nt ct → "0" ∈ classAt st nt ct ∨ nt ∈ nts) := by
  induction nts with
  | nil =>
    intro st st₁ h _ _
    obtain rfl := Option.some.inj h
    exact ⟨fun nt hnt => absurd hnt (List.not_mem_nil nt), fun nt ct hm => Or.inl hm⟩
  | cons nt₀ nts ih =>
    intro st st₁ h hnd hz
    unfold baselineGo at h
    cases hp : baselineStep program st nt₀ with
    | none => rw [hp] at h; exact Option.noConfusion h
    | some st₂ =>
      rw [hp] at h
      obtain ⟨ct₀, hr, rfl⟩ := baselineStep_eq hp
      have hnt₀ : nt₀ ∉ nts := (List.nodup_cons.mp hnd).1
      have hz₂ : ∀ nt ∈ nts, ∀ ct, "0" ∉ classAt (insertMutant st nt₀ ct₀ "0") nt ct := by
        intro nt hnt ct hmem
        rcases mem_classAt_insertMutant hmem with h₁ | ⟨_, h₂, _⟩
        · exact hz nt (List.mem_cons_of_mem nt₀ hnt) ct h₁
        · subst h₂
          exact hnt₀ hnt
      obtain ⟨hmain, hinv⟩ := ih h (List.nodup_cons.mp hnd).2 hz₂
      constructor
      · intro nt hnt
        rcases List.mem_cons.mp hnt with rfl | hnt₁
        · refine ⟨ct₀, hr, ?_, ?_⟩
          · apply baselineGo_mono h
            rw [classAt_insertMutant_same, mem_insertClass_iff]
            exact Or.inr rfl
          · intro ct₁ hmem
            rcases hinv nt ct₁ hmem with h₁ | h₁
            · rcases mem_classAt_insertMutant h₁ with h₂ | ⟨_, _, h₃⟩
              · exact absurd h₂ (hz nt (List.mem_cons_self nt nts) ct₁)
              · exact h₃
            · exact absurd h₁ hnt₀
        · exact hmain nt hnt₁
      · intro nt ct hmem
        rcases hinv nt ct hmem with h₁ | h₁
        · rcases mem_classAt_insertMutant h₁ with h₂ | ⟨_, h₃, _⟩
          · exact Or.inl h₂
          · subst h₃
            exact Or.inr (List.mem_cons_self nt nts)
        · exact Or.inr (List.mem_cons_of_mem nt₀ h₁)

/-- C2: after the baseline pass, for every `ArtifactSetKey` discovered
from at least one mutant, the baseline id "0" belongs to the class
under that key whose `ContentKey` is the tuple of the baseline
program's artifact bytes at that key, and to no other class under that
key (a fresh class having been created when no mutant's content
matched). -/
theorem baseline_pass_inserts_zero_exactly_once (mutants : List Mutant) (program : FileMap)
    (st st₁ : IndexState) (hmid : ∀ m ∈ mutants, m.mid ≠ "0")
    (hrun : processMutants initState mutants = some st)
    (hbase : baselinePass program st = some st₁) :
    ∀ nt ∈ keysOf st.hashes, ∃ ct, read_name_tuple_from_root nt program = some ct ∧
      "0" ∈ classAt st₁ nt ct ∧ ∀ ct₁, "0" ∈ classAt st₁ nt ct₁ → ct₁ = ct := by
  have hz : ∀ nt ct, "0" ∉ classAt st nt ct := by
    intro nt ct hmem
    rcases mem_classAt_processMutants hrun hmem with h₁ | ⟨m, hm, h₂⟩
    · simp [classAt, initState, hClassAt] at h₁
    · exact hmid m hm h₂.symm
  have hnd : (keysOf st.hashes).Nodup :=
    nodupKeys_processMutants hrun (by simp [initState, keysOf])
  exact (baselineGo_spec hbase hnd (fun nt _ ct => hz nt ct)).1

def mutsW2 : List Mutant := [⟨"1", [⟨"p", ["a"]⟩], [(("p", "a"), [7])]⟩]

def progW2 : FileMap := [(("p", "a"), [9])]

def stW2 : IndexState := (processMutants initState mutsW2).getD initState

def stW2b : IndexState := (baselinePass progW2 stW2).getD initState

theorem baseline_pass_inserts_zero_exactly_once_witness :
    ∃ ct, read_name_tuple_from_root [("p", "a")] progW2 = some ct ∧
      "0" ∈ classAt stW2b [("p", "a")] ct ∧
      ∀ ct₁, "0" ∈ classAt stW2b [("p", "a")] ct₁ → ct₁ = ct :=
  baseline_pass_inserts_zero_exactly_once mutsW2 progW2 stW2 stW2b (by decide) (by decide)
    (by decide) [("p", "a")] (by decide)

/-! ## C4: the interesting-class collection -/

/-- The run invariant of `nonsingleton_equivalence_classes`: no class
location is recorded twice, and a location is recorded exactly when its
class has at least two members. -/
def InterestingInv (st : IndexState) : Prop :=
  st.interesting.Nodup ∧
    ∀ p : NameTuple × ContentsTuple, p ∈ st.interesting ↔ 2 ≤ (classAt st p.1 p.2).length

theorem inv_insertMutant {st : IndexState} {nt : NameTuple} {ct : ContentsTuple} {mid : String}
    (hInv : InterestingInv st) (hfresh : mid ∉ classAt st nt ct) :
    InterestingInv (insertMutant st nt ct mid) := by
  obtain ⟨hnd, hchar⟩ := hInv
  have hlen : (classAt (insertMutant st nt ct mid) nt ct).length =
      (classAt st nt ct).length + 1 := by
    rw [classAt_insertMutant_same]
    exact length_insertClass_of_not_mem hfresh
  have hint : (insertMutant st nt ct mid).interesting =
      if (classAt st nt ct).length + 1 = 2 then st.interesting ++ [(nt, ct)]
      else st.interesting := by
    rw [interesting_insertMutant]
    by_cases h : mid ∈ classAt st nt ct
    · exact absurd h hfresh
    · rw [length_insertClass_of_not_mem h]
  by_cases h2 : (classAt st nt ct).length + 1 = 2
  · have hnotin : (nt, ct) ∉ st.interesting := by
      rw [hchar (nt, ct)]
      intro hle
      simp only at hle
      omega
    constructor
    · rw [hint, if_pos h2]
      refine hnd.append (List.nodup_singleton _) ?_
      intro a ha hmem
      rw [List.mem_singleton] at hmem
      subst hmem
      exact hnotin ha
    · intro p
      rw [hint, if_pos h2, List.mem_append, List.mem_singleton]
      by_cases hp : p = (nt, ct)
      · subst hp
        have hge : 2 ≤ (classAt (insertMutant st nt ct mid) nt ct).length := by
          rw [hlen]
          omega
        exact iff_of_true (Or.inr rfl) hge
      · have hne : ¬(p.1 = nt ∧ p.2 = ct) := by
          rintro ⟨h₁, h₂⟩
          obtain ⟨p₁, p₂⟩ := p
          simp only at h₁ h₂
          subst h₁
          subst h₂
          exact hp rfl
        rw [classAt_insertMutant_other _ _ hne]
        simp only [hp, or_false]
        exact hchar p
  · constructor
    · rw [hint, if_neg h2]
      exact hnd
    · intro p
      rw [hint, if_neg h2]
      by_cases hp : p = (nt, ct)
      · subst hp
        rw [hchar (nt, ct)]
        simp only
        rw [hlen]
        omega
      · have hne : ¬(p.1 = nt ∧ p.2 = ct) := by
          rintro ⟨h₁, h₂⟩
          obtain ⟨p₁, p₂⟩ := p
          simp only at h₁ h₂
          subst h₁
          subst h₂
          exact hp rfl
        rw [classAt_insertMutant_other _ _ hne]
        exact hchar p

theorem insertSorted_ne_nil (x : String) (l : List String) : insertSorted x l ≠ [] := by
  cases l with
  | nil => simp [insertSorted]
  | cons y ys =>
    unfold insertSorted
    split <;> simp

theorem sortNames_ne_nil {l : List String} (h : l ≠ []) : sortNames l ≠ [] := by
  cases l with
  | nil => exact absurd rfl h
  | cons x xs => exact insertSorted_ne_nil x (sortNames xs)

theorem ntOf_relpath_inj {l₁ l₂ : DirLevel} (h₁ : l₁.filenames ≠ []) (h₂ : l₂.filenames ≠ [])
    (h : ntOf l₁ = ntOf l₂) : l₁.relpath = l₂.relpath := by
  unfold ntOf at h
  obtain ⟨a, as, ha⟩ := List.exists_cons_of_ne_nil (sortNames_ne_nil h₁)
  obtain ⟨b, bs, hb⟩ := List.exists_cons_of_ne_nil (sortNames_ne_nil h₂)
  rw [ha, hb] at h
  simp only [List.map_cons, List.cons.injEq, Prod.mk.injEq] at h
  exact h.1.1

theorem fresh_processLevels {fs : FileMap} {mid : String} {ls : List DirLevel}
    {st st₁ : IndexState} {x : String} (h : processLevels fs mid st ls = some st₁)
    (hx : x ≠ mid) (hfr : ∀ nt ct, x ∉ classAt st nt ct) :
    ∀ nt ct, x ∉ classAt st₁ nt ct := by
  intro nt ct hmem
  rcases mem_classAt_processLevels h hmem with h₁ | ⟨h₁, _⟩
  · exact hfr nt ct h₁
  · exact hx h₁

theorem inv_processLevels {fs : FileMap} {mid : String} {ls : List DirLevel} :
    ∀ {st st₁ : IndexState}, processLevels fs mid st ls = some st₁ →
      InterestingInv st →
      (∀ l ∈ ls, l.filenames ≠ [] → ∀ ct, mid ∉ classAt st (ntOf l) ct) →
      (ls.map DirLevel.relpath).Nodup →
      InterestingInv st₁ := by
  induction ls with
  | nil =>
    intro st st₁ h hInv _ _
    obtain rfl := Option.some.inj h
    exact hInv
  | cons l ls ih =>
    intro st st₁ h hInv hfresh hnd
    simp only [List.map_cons, List.nodup_cons] at hnd
    unfold processLevels at h
    cases hp : processLevel fs mid st l with
    | none => rw [hp] at h; exact Option.noConfusion h
    | some st₂ =>
      rw [hp] at h
      rcases processLevel_eq_cases hp with ⟨_, rfl⟩ | ⟨hf, ct₀, _, rfl⟩
      · exact ih h hInv (fun l₁ hl₁ => hfresh l₁ (List.mem_cons_of_mem l hl₁)) hnd.2
      · refine ih h (inv_insertMutant hInv (hfresh l (List.mem_cons_self l ls) hf ct₀)) ?_ hnd.2
        intro l₁ hl₁ hf₁ ct hmem
        rcases mem_classAt_insertMutant hmem with hm₁ | ⟨_, hm₂, _⟩
        · exact hfresh l₁ (List.mem_cons_of_mem l hl₁) hf₁ ct hm₁
        · have hrp : l₁.relpath = l.relpath := ntOf_relpath_inj hf₁ hf hm₂
          exact hnd.1 (hrp ▸ List.mem_map_of_mem DirLevel.relpath hl₁)

theorem inv_processMutants {ms : List Mutant} :
    ∀ {st st₁ : IndexState}, processMutants st ms = some st₁ →
      InterestingInv st →
      (∀ m ∈ ms, ∀ nt ct, m.mid ∉ classAt st nt ct) →
      (ms.map Mutant.mid).Nodup →
      (∀ m ∈ ms, (m.levels.map DirLevel.relpath).Nodup) →
      InterestingInv st₁ := by
  induction ms with
  | nil =>
    intro st st₁ h hInv _ _ _
    obtain rfl := Option.some.inj h
    exact hInv
  | cons m ms ih =>
    intro st st₁ h hInv hfresh hmids hrel
    simp only [List.map_cons, List.nodup_cons] at hmids
    unfold processMutants at h
    cases hp : processMutant st m with
    | none => rw [hp] at h; exact Option.noConfusion h
    | some st₂ =>
      rw [hp] at h
      have hInv₂ : InterestingInv st₂ :=
        inv_processLevels hp hInv
          (fun l _ _ ct => hfresh m (List.mem_cons_self m ms) (ntOf l) ct)
          (hrel m (List.mem_cons_self m ms))
      refine ih h hInv₂ ?_ hmids.2 (fun m₁ hm₁ => hrel m₁ (List.mem_cons_of_mem m hm₁))
      intro m₁ hm₁ nt ct
      have hne : m₁.mid ≠ m.mid := by
        intro he
        exact hmids.1 (he ▸ List.mem_map_of_mem Mutant.mid hm₁)
      exact fresh_processLevels hp hne
        (fun nt₁ ct₁ => hfresh m₁ (List.mem_cons_of_mem m hm₁) nt₁ ct₁) nt ct

theorem inv_baselineGo {program : FileMap} {nts : List NameTuple} :
    ∀ {st st₁ : IndexState}, baselineGo program st nts = some st₁ →
      InterestingInv st → nts.Nodup →
      (∀ nt ∈ nts, ∀ ct, "0" ∉ classAt st nt ct) →
      InterestingInv st₁ := by
  induction nts with
  | nil =>
    intro st st₁ h hInv _ _
    obtain rfl := Option.some.inj h
    exact hInv
  | cons nt₀ nts ih =>
    intro st st₁ h hInv hnd hz
    unfold baselineGo at h
    cases hp : baselineStep program st nt₀ with
    | none => rw [hp] at h; exact Option.noConfusion h
    | some st₂ =>
      rw [hp] at h
      obtain ⟨ct₀, _, rfl⟩ := baselineStep_eq hp
      have hnt₀ : nt₀ ∉ nts := (List.nodup_cons.mp hnd).1
      refine ih h
        (inv_insertMutant hInv (hz nt₀ (List.mem_cons_self nt₀ nts) ct₀))
        (List.nodup_cons.mp hnd).2 ?_
      intro nt hnt ct hmem
      rcases mem_classAt_insertMutant hmem with h₁ | ⟨_, h₂, _⟩
      · exact hz nt (List.mem_cons_of_mem nt₀ hnt) ct h₁
      · subst h₂
        exact hnt₀ hnt

/-- The invariant established by a complete indexing run followed by
the baseline pass, under the guarantees the directory layout provides:
distinct mutant ids, no mutant named "0", and distinct walk relpaths
within each mutant. -/
theorem run_interesting_inv (mutants : List Mutant) (program : FileMap) (st st₁ : IndexState)
    (hmids : (mutants.map Mutant.mid).Nodup)
    (h0 : ∀ m ∈ mutants, m.mid ≠ "0")
    (hrel : ∀ m ∈ mutants, (m.levels.map DirLevel.relpath).Nodup)
    (hrun : processMutants initState mutants = some st)
    (hbase : baselinePass program st = some st₁) :
    InterestingInv st₁ := by
  have hInv₀ : InterestingInv initState := by
    constructor
    · exact List.nodup_nil
    · intro p
      simp [classAt, initState, hClassAt]
  have hInv : InterestingInv st :=
    inv_processMutants hrun hInv₀
      (fun m _ nt ct hmem => by simp [classAt, initState, hClassAt] at hmem) hmids hrel
  have hz : ∀ nt ct, "0" ∉ classAt st nt ct := by
    intro nt ct hmem
    rcases mem_classAt_processMutants hrun hmem with h₁ | ⟨m, hm, h₂⟩
    · simp [classAt, initState, hClassAt] at h₁
    · exact h0 m hm h₂.symm
  exact inv_baselineGo hbase hInv
    (nodupKeys_processMutants hrun (by simp [initState, keysOf]))
    (fun nt _ ct => hz nt ct)

/-- C4: across indexing and the baseline pass, a class location enters
`nonsingleton_equivalence_classes` exactly when its class ends with at
least two members — the append fires precisely at the insertion whose
size check `len(eq_class) == 2` sees the 1→2 transition — and no class
appears in the collection twice. -/
theorem interesting_appended_once_at_threshold (mutants : List Mutant) (program : FileMap)
    (st st₁ : IndexState)
    (hmids : (mutants.map Mutant.mid).Nodup)
    (h0 : ∀ m ∈ mutants, m.mid ≠ "0")
    (hrel : ∀ m ∈ mutants, (m.levels.map DirLevel.relpath).Nodup)
    (hrun : processMutants initState mutants = some st)
    (hbase : baselinePass program st = some st₁) :
    st₁.interesting.Nodup ∧
      ∀ p : NameTuple × ContentsTuple,
        p ∈ st₁.interesting ↔ 2 ≤ (classAt st₁ p.1 p.2).length :=
  run_interesting_inv mutants program st st₁ hmids h0 hrel hrun hbase

def mutsW4 : List Mutant :=
  [⟨"1", [⟨"p", ["a"]⟩], [(("p", "a"), [7])]⟩, ⟨"2", [⟨"p", ["a"]⟩], [(("p", "a"), [7])]⟩]

def progW4 : FileMap := [(("p", "a"), [9])]

def stW4 : IndexState := (processMutants initState mutsW4).getD initState

def stW4b : IndexState := (baselinePass progW4 stW4).getD initState

theorem interesting_appended_once_at_threshold_witness :
    stW4b.interesting.Nodup ∧
      (([("p", "a")], [[7]]) ∈ stW4b.interesting ↔
        2 ≤ (classAt stW4b [("p", "a")] [[7]]).length) :=
  ⟨(interesting_appended_once_at_threshold mutsW4 progW4 stW4 stW4b (by decide) (by decide)
      (by decide) (by decide) (by decide)).1,
    (interesting_appended_once_at_threshold mutsW4 progW4 stW4 stW4b (by decide) (by decide)
      (by decide) (by decide) (by decide)).2 ([("p", "a")], [[7]])⟩

/-! ## C3: the equivalent/redundant split -/

/-- C3: every class of the equivalent collection contains "0", none of
the redundant collection does, their union is exactly the interesting
collection, and — after a complete run — the interesting collection's
classes are exactly the classes with at least two members. -/
theorem equivalent_redundant_partition (mutants : List Mutant) (program : FileMap)
    (st st₁ : IndexState)
    (hmids : (mutants.map Mutant.mid).Nodup)
    (h0 : ∀ m ∈ mutants, m.mid ≠ "0")
    (hrel : ∀ m ∈ mutants, (m.levels.map DirLevel.relpath).Nodup)
    (hrun : processMutants initState mutants = some st)
    (hbase : baselinePass program st = some st₁) :
    (∀ c ∈ equivalent_mutants st₁, "0" ∈ c) ∧
      (∀ c ∈ redundant_mutants st₁, "0" ∉ c) ∧
      (∀ c, (c ∈ equivalent_mutants st₁ ∨ c ∈ redundant_mutants st₁) ↔
        c ∈ interestingClasses st₁) ∧
      (∀ c ∈ interestingClasses st₁, 2 ≤ c.length) ∧
      (∀ nt ct, 2 ≤ (classAt st₁ nt ct).length →
        classAt st₁ nt ct ∈ interestingClasses st₁) := by
  obtain ⟨_, hchar⟩ :=
    run_interesting_inv mutants program st st₁ hmids h0 hrel hrun hbase
  refine ⟨?_, ?_, ?_, ?_, ?_⟩
  · intro c hc
    have := (List.mem_filter.mp hc).2
    exact of_decide_eq_true this
  · intro c hc
    have := (List.mem_filter.mp hc).2
    exact of_decide_eq_true this
  · intro c
    constructor
    · rintro (hc | hc)
      · exact (List.mem_filter.mp hc).1
      · exact (List.mem_filter.mp hc).1
    · intro hc
      by_cases hz : "0" ∈ c
      · exact Or.inl (List.mem_filter.mpr ⟨hc, decide_eq_true hz⟩)
      · exact Or.inr (List.mem_filter.mpr ⟨hc, decide_eq_true hz⟩)
  · intro c hc
    obtain ⟨p, hp, rfl⟩ := List.mem_map.mp hc
    exact (hchar p).mp hp
  · intro nt ct hlen
    have hp : (nt, ct) ∈ st₁.interesting := (hchar (nt, ct)).mpr hlen
    exact List.mem_map.mpr ⟨(nt, ct), hp, rfl⟩

theorem equivalent_redundant_partition_witness :
    (["1", "2"] ∈ equivalent_mutants stW4b ∨ ["1", "2"] ∈ redundant_mutants stW4b) ↔
      ["1", "2"] ∈ interestingClasses stW4b :=
  (equivalent_redundant_partition mutsW4 progW4 stW4 stW4b (by decide) (by decide)
    (by decide) (by decide) (by decide)).2.2.1 ["1", "2"]

/-! ## C9: comparator reflexivity -/

theorem lastLineContaining_eq_none {ls : List (List String)} {x : String}
    (h : ∀ l ∈ ls, x ∉ l) : lastLineContaining ls x = none := by
  induction ls with
  | nil => rfl
  | cons l₀ ls ih =>
    unfold lastLineContaining
    rw [ih (fun l hl => h l (List.mem_cons_of_mem l₀ hl))]
    simp [h l₀ (List.mem_cons_self l₀ ls)]

theorem lastLineContaining_mem {ls : List (List String)} {x : String} {l : List String}
    (h : lastLineContaining ls x = some l) : l ∈ ls ∧ x ∈ l := by
  induction ls with
  | nil => exact Option.noConfusion h
  | cons l₀ ls ih =>
    unfold lastLineContaining at h
    cases hr : lastLineContaining ls x with
    | some l₁ =>
      rw [hr] at h
      obtain rfl := Option.some.inj h
      obtain ⟨h₁, h₂⟩ := ih hr
      exact ⟨List.mem_cons_of_mem l₀ h₁, h₂⟩
    | none =>
      rw [hr] at h
      by_cases hx : x ∈ l₀
      · rw [if_pos hx] at h
        obtain rfl := Option.some.inj h
        exact ⟨List.mem_cons_self l₀ ls, hx⟩
      · rw [if_neg hx] at h
        exact Option.noConfusion h

theorem disjointLines_not_mem_of_mem {ls : List (List String)} {l₀ l₂ : List String}
    {x : String} (hd : disjointLines (l₀ :: ls) = true) (hx : x ∈ l₀) (hl₂ : l₂ ∈ ls) :
    x ∉ l₂ := by
  unfold disjointLines at hd
  rw [Bool.and_eq_true, List.all_eq_true] at hd
  have := hd.1 l₂ hl₂
  rw [List.all_eq_true] at this
  exact of_decide_eq_true (this x hx)

theorem disjointLines_tail {ls : List (List String)} {l₀ : List String}
    (hd : disjointLines (l₀ :: ls) = true) : disjointLines ls = true := by
  unfold disjointLines at hd
  rw [Bool.and_eq_true] at hd
  exact hd.2

theorem lastLineContaining_of_disjoint {ls : List (List String)} {l : List String}
    {x : String} (hd : disjointLines ls = true) (hl : l ∈ ls) (hx : x ∈ l) :
    lastLineContaining ls x = some l := by
  induction ls with
  | nil => exact absurd hl (List.not_mem_nil l)
  | cons l₀ ls ih =>
    rcases List.mem_cons.mp hl with rfl | hl₁
    · unfold lastLineContaining
      rw [lastLineContaining_eq_none (fun l₂ hl₂ => disjointLines_not_mem_of_mem hd hx hl₂)]
      simp [hx]
    · unfold lastLineContaining
      rw [ih (disjointLines_tail hd) hl₁]

theorem mmLookup_of_disjoint {ls : List (List String)} {l : List String} {x : String}
    (hd : disjointLines ls = true) (hl : l ∈ ls) (hx : x ∈ l) :
    mmLookup (buildMidMap ls) x = some l := by
  rw [mmLookup_buildMidMap]
  exact lastLineContaining_of_disjoint hd hl hx

theorem collectOther_skip {mm : MidMap} {ms nv : List String} {acc : List (List String)}
    (h : ∀ m ∈ ms, m ∈ nv) : collectOther mm ms nv acc = (nv, acc) := by
  induction ms with
  | nil => rfl
  | cons m ms ih =>
    unfold collectOther
    rw [if_pos (h m (List.mem_cons_self m ms))]
    exact ih (fun m₁ hm₁ => h m₁ (List.mem_cons_of_mem m hm₁))

theorem collectOther_self {ls : List (List String)} {L : List String}
    (hd : disjointLines ls = true) (hL : L ∈ ls) (hne : L ≠ []) :
    collectOther (buildMidMap ls) L [] [] = (L, [L]) := by
  obtain ⟨m₀, ms, rfl⟩ := List.exists_cons_of_ne_nil hne
  unfold collectOther
  rw [if_neg (List.not_mem_nil m₀),
    mmLookup_of_disjoint hd hL (List.mem_cons_self m₀ ms)]
  simp only [List.nil_append]
  exact collectOther_skip (fun m hm => List.mem_cons_of_mem m₀ hm)

theorem subsetB_self (l : List String) : subsetB l l = true := by
  rw [subsetB, List.all_eq_true]
  intro x hx
  exact decide_eq_true hx

theorem visitPass_self {ls : List (List String)} (hd : disjointLines ls = true) :
    ∀ (ks visited : List String),
      visitPass (buildMidMap ls) (buildMidMap ls) ks visited = [] := by
  intro ks
  induction ks with
  | nil => intro visited; rfl
  | cons mid rest ih =>
    intro visited
    unfold visitPass
    by_cases hv : mid ∈ visited
    · rw [if_pos hv]
      exact ih visited
    · rw [if_neg hv]
      cases hlk : mmLookup (buildMidMap ls) mid with
      | none => exact ih visited
      | some L =>
        rw [mmLookup_buildMidMap] at hlk
        obtain ⟨hLls, hmidL⟩ := lastLineContaining_mem hlk
        have hLne : L ≠ [] := List.ne_nil_of_mem hmidL
        have hcol := collectOther_self hd hLls hLne
        simp only [hcol, subsetB_self, if_pos, List.nil_append]
        exact ih (visited ++ L)

theorem getLastD_singleton (l : List String) (d : List String) : [l].getLastD d = l := by
  simp [List.getLastD]

theorem visitPassB_self {ls : List (List String)} (hd : disjointLines ls = true) :
    ∀ (ks visited : List String),
      visitPassB (buildMidMap ls) (buildMidMap ls) ks visited = [] := by
  intro ks
  induction ks with
  | nil => intro visited; rfl
  | cons mid rest ih =>
    intro visited
    unfold visitPassB
    by_cases hv : mid ∈ visited
    · rw [if_pos hv]
      exact ih visited
    · rw [if_neg hv]
      cases hlk : mmLookup (buildMidMap ls) mid with
      | none => exact ih visited
      | some L =>
        rw [mmLookup_buildMidMap] at hlk
        obtain ⟨hLls, hmidL⟩ := lastLineContaining_mem hlk
        have hLne : L ≠ [] := List.ne_nil_of_mem hmidL
        have hcol := collectOther_self hd hLls hLne
        simp only [hcol, getLastD_singleton, subsetB_self, if_pos, List.nil_append]
        exact ih (visited ++ L)

/-- C9: comparing a classification file whose classes are pairwise
disjoint against itself reports no disagreement for any class, in both
the A-primary and the B-primary pass. -/
theorem compare_self_reports_nothing (ls : List (List String))
    (hd : disjointLines ls = true) : compareFiles ls ls = ([], []) := by
  have h₁ := visitPass_self hd (mmKeys (buildMidMap ls)) ["0"]
  have h₂ := visitPassB_self hd (mmKeys (buildMidMap ls)) ["0"]
  unfold compareFiles
  simp only [h₁, h₂]

theorem compare_self_reports_nothing_witness :
    disjointLines [["1", "2"], ["3", "4"], ["0", "5"]] = true ∧
      compareFiles [["1", "2"], ["3", "4"], ["0", "5"]]
        [["1", "2"], ["3", "4"], ["0", "5"]] = ([], []) :=
  ⟨by decide, compare_self_reports_nothing [["1", "2"], ["3", "4"], ["0", "5"]] (by decide)⟩
